import Mathlib

/-!
Verification development for the DICOM2NII-Pro batch-conversion core.

Shallow embedding of the Python source under `src/`:
* `src/src/core/conversion_manager.py` — modality detection, task queue,
  worker processing (state machine).
* `src/src/core/converters/ct_converter.py` — instance-number file ordering.
* `src/src/utils/image_processing.py` — intensity discretization.
* `src/src/core/batch_processor.py` — directory scan / series grouping.
* `src/src/core/converters/mammography_converter.py` — edge-margin scrub.
* `src/legacy/dicom2nii_breast_rd_rp_rs.py` and
  `src/src/core/converters/radiotherapy_converter.py` — contour-to-mask.
-/

namespace D2N

/-! ## Substring utilities (Python `in` on strings, `str.upper`)

Lean's `String.toUpper`/`String.endsWith` do not reduce in the kernel, so
string operations are carried out on the underlying character lists. -/

/-- Characters `needle` occur contiguously inside `hay` (Python `needle in hay`). -/
def charsInfix (needle : List Char) : List Char → Bool
  | [] => needle.isEmpty
  | c :: cs => needle.isPrefixOf (c :: cs) || charsInfix needle cs

/-- Python `needle in hay` for strings. -/
def strContains (hay needle : String) : Bool :=
  charsInfix needle.toList hay.toList

/-- Python `str.upper()` (ASCII, which is all the code compares). -/
def upChars (s : String) : List Char :=
  s.toList.map Char.toUpper

/-- Python `str.lower()`. -/
def lowChars (s : String) : List Char :=
  s.toList.map Char.toLower

/-- Python `in` on upper-cased path: `needle in path.upper()`. -/
def strContainsUpper (path needle : String) : Bool :=
  charsInfix needle.toList (upChars path)

/-- Python `str.endswith` on the lower-cased path. -/
def lowerEndsWith (path suffixStr : String) : Bool :=
  suffixStr.toList.isSuffixOf (lowChars path)

/-! ## Modality detection — `ConversionManager._detect_modality` and
`ConversionManager._detect_modality_from_dicom`
(`src/src/core/conversion_manager.py`, lines 383–448).

The input to `_detect_modality` is a filesystem path plus the DICOM file the
code would read at that path.  We model the path as a string and the
readable DICOM header's `Modality` attribute as an `Option String`
(`none` = the read fails or the attribute is missing).  The directory branch
of the code reads the first file found in the directory and feeds it to the
same `_detect_modality_from_dicom`; we embed the single-file branch, whose
suffix test is `input_path.suffix.lower() in ['.dcm', '.dicom']`. -/

def ct_keywords : List String := ["CT", "HEAD-CT", "BASELINE-HEAD-CT"]

def mri_keywords : List String := ["MRI", "MR", "DCE", "DWI", "ADC", "T1", "T2", "FLAIR"]

def mg_keywords : List String := ["MG", "MAMMOGRAPHY", "BREAST", "MLO", "CC"]

def rt_keywords : List String := ["RT", "RTSTRUCT", "RTPLAN", "RTDOSE"]

/-- Python `any(keyword in path_str for keyword in ...)` where `path_str`
is the upper-cased input path. -/
def anyKeyword (path : String) (kws : List String) : Bool :=
  kws.any (fun k => strContainsUpper path k)

/-- Embedding of `ConversionManager._detect_modality_from_dicom`: map the header's
`Modality` tag (upper-cased) to a supported modality name. -/
def detect_modality_from_dicom (hdrModality : Option String) : Option String :=
  match hdrModality with
  | none => none
  | some m =>
    let mu := upChars m
    if mu = "CT".toList then some "CT"
    else if mu = "MR".toList || mu = "MRI".toList then some "MRI"
    else if mu = "MG".toList then some "MG"
    else if mu = "RTSTRUCT".toList || mu = "RTPLAN".toList || mu = "RTDOSE".toList then
      some "RT"
    else none

/-- Embedding of `ConversionManager._detect_modality`: keyword groups are tested against
the upper-cased path string in the fixed order CT, MRI, MG, RT; only when no
keyword matches does the code fall back to reading the DICOM header. -/
def detect_modality (path : String) (hdrModality : Option String) : Option String :=
  if anyKeyword path ct_keywords then some "CT"
  else if anyKeyword path mri_keywords then some "MRI"
  else if anyKeyword path mg_keywords then some "MG"
  else if anyKeyword path rt_keywords then some "RT"
  else if lowerEndsWith path ".dcm" || lowerEndsWith path ".dicom" then
    detect_modality_from_dicom hdrModality
  else none

/-! ## ConversionManager task model
(`src/src/core/conversion_manager.py`).

`ConversionTask.status` is one of the five strings of the dataclass;
we use an enumeration.  `add_task` pushes `(-priority, created_time, task)`
onto a `queue.PriorityQueue`, so the entry with the smallest
`(-priority, created_time)` is dequeued first.  `created_time` values are
`datetime.now()` stamps taken under the single caller, modelled by a
strictly increasing clock, so all queue keys are distinct.

Concurrency is modelled by an interleaving of atomic events:
* `add p`    — `add_task` with priority `p`;
* `cancel i` — `cancel_task(i)`: flips the status of an *active* task to
               cancelled and otherwise does nothing (the code's TODO:
               pending tasks cannot be removed from the queue);
* `deque`    — a worker's `task_queue.get()` plus the head of
               `_process_task` (stamp `started_time`, set status running,
               insert into `active_tasks`);
* `finish i ok` — the tail of `_process_task` once the converter returns:
               status becomes completed (success) or failed (exception),
               `completed_time` is stamped, and the `finally:` block moves
               the task from `active_tasks` to `completed_tasks`. -/

inductive Status where
  | pending
  | running
  | completed
  | failed
  | cancelled
deriving DecidableEq, Repr

/-- The fields of `ConversionTask` that the claims talk about. -/
structure TaskRec where
  pri : Int := 0
  created : Nat := 0
  started : Option Nat := none
  finishedAt : Option Nat := none
  status : Status := .pending
deriving DecidableEq, Repr

/-- A `(-priority, created_time, task)` entry of `task_queue`, carrying the
task id; the heap key is `(-pri, created)`. -/
structure QEntry where
  pri : Int
  created : Nat
  id : Nat
deriving DecidableEq, Repr

/-- Dequeue order of the priority queue: `a` is popped no later than `b`.
Smallest `(-pri, created)` first, i.e. highest priority first and, among
equal priorities, earliest creation time first. -/
def qle (a b : QEntry) : Prop :=
  b.pri < a.pri ∨ (a.pri = b.pri ∧ a.created ≤ b.created)

instance : DecidableRel qle := fun a b => by
  unfold qle; infer_instance

/-- Select a minimal entry (the one `heapq` pops) and return it with the
remaining entries. `x` is the current candidate. -/
def extractMin (x : QEntry) : List QEntry → QEntry × List QEntry
  | [] => (x, [])
  | y :: ys =>
    if qle x y then
      let p := extractMin x ys
      (p.1, y :: p.2)
    else
      let p := extractMin y ys
      (p.1, x :: p.2)

/-- Fuelled repeated extraction; `fuel` at least the queue length drains
everything. -/
def drainAux : Nat → List QEntry → List QEntry
  | 0, _ => []
  | _ + 1, [] => []
  | fuel + 1, x :: xs =>
    (extractMin x xs).1 :: drainAux fuel (extractMin x xs).2

/-- The full dequeue sequence of a queue content: repeatedly pop the
minimal entry, as the worker loop's successive `task_queue.get()` calls do
when no further tasks are added. -/
def drainQueue (l : List QEntry) : List QEntry :=
  drainAux l.length l

/-- Manager events. -/
inductive MEvent where
  | add (pri : Int)
  | cancel (id : Nat)
  | deque
  | finish (id : Nat) (ok : Bool)
deriving DecidableEq, Repr

/-- Manager state: the task counter, a clock standing for `datetime.now()`,
the queue content, the key sets of `active_tasks` and `completed_tasks`,
and the per-task records (tasks that were never created keep the default
record). -/
structure MState where
  counter : Nat
  clock : Nat
  queue : List QEntry
  active : List Nat
  doneIds : List Nat
  tasks : Nat → TaskRec

/-- The freshly constructed manager. -/
def initState : MState :=
  { counter := 0, clock := 0, queue := [], active := [], doneIds := [],
    tasks := fun _ => {} }

/-- One atomic event, following the Python method bodies. -/
def mstep (s : MState) : MEvent → MState
  | .add pri =>
    let id := s.counter
    { s with
      counter := s.counter + 1
      clock := s.clock + 1
      queue := s.queue ++ [⟨pri, s.clock, id⟩]
      tasks := fun j =>
        if j = id then
          { pri := pri, created := s.clock, started := none,
            finishedAt := none, status := .pending }
        else s.tasks j }
  | .cancel id =>
    if id ∈ s.active then
      { s with
        tasks := fun j =>
          if j = id then { s.tasks id with status := .cancelled }
          else s.tasks j }
    else s
  | .deque =>
    match s.queue with
    | [] => s
    | x :: xs =>
      let m := (extractMin x xs).1
      { s with
        clock := s.clock + 1
        queue := (extractMin x xs).2
        active := m.id :: s.active
        tasks := fun j =>
          if j = m.id then
            { s.tasks m.id with status := .running, started := some s.clock }
          else s.tasks j }
  | .finish id ok =>
    if id ∈ s.active then
      { s with
        clock := s.clock + 1
        active := s.active.erase id
        doneIds := id :: s.doneIds
        tasks := fun j =>
          if j = id then
            { s.tasks id with
              status := if ok then .completed else .failed,
              finishedAt := some s.clock }
          else s.tasks j }
    else s

/-- Run a list of events from the fresh manager. -/
def mrun (evs : List MEvent) : MState :=
  evs.foldl mstep initState

/-- Status of a task id in a state. -/
def statusOf (s : MState) (id : Nat) : Status :=
  (s.tasks id).status

/-- The boolean `cancel_task` returns: it succeeds exactly on active
tasks. -/
def cancel_task_result (s : MState) (id : Nat) : Bool :=
  s.active.contains id

/-! ## CT converter file ordering — `CTConverter._sort_by_instance_number`
(`src/src/core/converters/ct_converter.py`, lines 128–146).

Per file the code tries `pydicom.dcmread`; on success it uses
`int(getattr(ds, 'InstanceNumber', 0))` — a readable header *without* an
`InstanceNumber` contributes the default key `0`.  Only when reading (or the
`int` conversion) raises does it fall back to the last run of digits in the
file name (`re.findall(r'\d+', name)`, last match, else `0`).  The pairs are
then sorted by key with Python's stable `list.sort`. -/

/-- A readable DICOM slice header: just the optional `InstanceNumber`. -/
structure SliceHeader where
  instanceNumber : Option Int
deriving DecidableEq, Repr

/-- One candidate file: its name and the result of reading it
(`none` = `dcmread`/`int` raised). -/
structure SliceFile where
  name : String
  header : Option SliceHeader
deriving DecidableEq, Repr

def digitVal (c : Char) : Nat := c.toNat - 48

/-- Maximal runs of digits, left to right (`re.findall(r'\d+', s)`);
`cur` is the current run, reversed. -/
def runsAux : List Char → List Char → List (List Char)
  | [], cur => if cur.isEmpty then [] else [cur.reverse]
  | c :: cs, cur =>
    if c.isDigit then runsAux cs (c :: cur)
    else if cur.isEmpty then runsAux cs [] else cur.reverse :: runsAux cs []

def digitRuns (s : String) : List (List Char) := runsAux s.toList []

def digitsToNat (run : List Char) : Nat :=
  run.foldl (fun n c => 10 * n + digitVal c) 0

/-- Python `int(numbers[-1]) if numbers else 0` with
`numbers = re.findall(r'\d+', file_path.name)`. -/
def lastIntToken (s : String) : Int :=
  match (digitRuns s).getLast? with
  | none => 0
  | some run => Int.ofNat (digitsToNat run)

/-- The sort key the code pairs each file with. -/
def sort_key (f : SliceFile) : Int :=
  match f.header with
  | some h => h.instanceNumber.getD 0
  | none => lastIntToken f.name

/-- Comparison used by `file_instance_pairs.sort(key=lambda x: x[1])`. -/
def fileLE (a b : SliceFile) : Prop := sort_key a ≤ sort_key b

instance : DecidableRel fileLE := fun a b => by unfold fileLE; infer_instance

instance : IsTotal SliceFile fileLE := ⟨fun _ _ => Int.le_total _ _⟩

instance : IsTrans SliceFile fileLE := ⟨fun _ _ _ => Int.le_trans⟩

/-- Embedding of `CTConverter._sort_by_instance_number`. Python's `list.sort` is stable;
a stable sort is unique, so the stable `List.insertionSort` computes the
same list. -/
def sort_by_instance_number (files : List SliceFile) : List SliceFile :=
  files.insertionSort fileLE

/-! ## Intensity discretization — `discretize_intensity`
(`src/src/utils/image_processing.py`, lines 103–116).

The function dispatches on the `method` string and delegates to SimpleITK
filters.  The SimpleITK calls are external collaborators; we represent an
image symbolically as either raw values or an applied external filter, so
the embedding records exactly which external call the code makes. -/

inductive SitkImage where
  /-- concrete voxel values -/
  | base (vals : List ℚ)
  /-- result of `sitk.BinomialBlur(image, reps)` — an external smoothing
  filter (a `[1,2,1]/4`-kernel blur applied `reps` times) -/
  | binomialBlur (reps : Int) (img : SitkImage)
  /-- result of `sitk.DiscretizeImageFilter` with `SetNumberOfBins(bins)` -/
  | discretizeFilter (bins : Int) (img : SitkImage)
deriving DecidableEq, Repr

/-- Embedding of `discretize_intensity(image, method, value)`; the claims pass integral
`value`s, on which Python's `int(value)` is the identity. -/
def discretize_intensity (img : SitkImage) (method : String) (value : Int) : SitkImage :=
  if method = "FixedBinWidth" then .binomialBlur value img
  else if method = "FixedBinCount" then .discretizeFilter value img
  else img

def ratListMin : List ℚ → ℚ
  | [] => 0
  | v :: vs => vs.foldl min v

/-- Modelled from the spec: the discretization rule the code lacks —
"fixed-bin-width `w` maps value `v` to bin `floor((v - min)/w)`"
(spec §4.4); no function in the repository computes these bins. -/
def spec_fixed_bin_width (w : ℚ) (vals : List ℚ) : List Int :=
  vals.map (fun v => ⌊(v - ratListMin vals) / w⌋)

/-! ## Batch scan — `BatchProcessor.scan_directory` and
`BatchProcessor._parse_dicom_file`
(`src/src/core/batch_processor.py`, lines 105–212 and 361–393).

A candidate file is modelled by the outcome of
`pydicom.dcmread(..., stop_before_pixels=True)`: `none` when the read
raises or a required tag is missing, otherwise the four required tags.
`_parse_dicom_file` catches all its exceptions and returns `None`, so the
caller's `except` branch that appends to `scan_errors` is unreachable and
the error list stays empty. -/

structure DicomTags where
  seriesUid : String
  modality : String
  patientId : String
  studyUid : String
deriving DecidableEq, Repr

def supported_modalities : List String :=
  ["CT", "MR", "MRI", "MG", "US", "RT", "RTSTRUCT", "RTPLAN", "RTDOSE"]

/-- Embedding of `BatchProcessor._parse_dicom_file`: fail on unreadable files or missing
required tags (`f = none`), uppercase the modality, and drop unsupported
modalities silently. -/
def parse_dicom_file (f : Option DicomTags) : Option DicomTags :=
  match f with
  | none => none
  | some t =>
    let m : String := ⟨upChars t.modality⟩
    if m ∈ supported_modalities then some { t with modality := m }
    else none

/-- Python `if filt and value not in filt: continue` — an empty filter list
is falsy and filters nothing. -/
def passesFilter (filt : Option (List String)) (v : String) : Bool :=
  match filt with
  | none => true
  | some l => l.isEmpty || l.contains v

/-- The `series_dict` accumulator: files grouped by series UID in first-seen
order (Python dicts preserve insertion order), plus the valid-file count. -/
structure ScanAcc where
  valid : Nat
  groups : List (String × List DicomTags)
deriving Repr

/-- Append a file to its series group, creating the group at the end on
first sight. -/
def addToGroups (gs : List (String × List DicomTags)) (uid : String)
    (t : DicomTags) : List (String × List DicomTags) :=
  match gs with
  | [] => [(uid, [t])]
  | (u, l) :: rest =>
    if u = uid then (u, l ++ [t]) :: rest
    else (u, l) :: addToGroups rest uid t

/-- The per-file body of the scan loop. -/
def scanStep (patientFilter modalityFilter : Option (List String))
    (acc : ScanAcc) (f : Option DicomTags) : ScanAcc :=
  match parse_dicom_file f with
  | none => acc
  | some t =>
    if passesFilter patientFilter t.patientId then
      if passesFilter modalityFilter t.modality then
        { valid := acc.valid + 1, groups := addToGroups acc.groups t.seriesUid t }
      else acc
    else acc

/-- The `DicomSeries` data the claims need. -/
structure SeriesRec where
  uid : String
  modality : String
  patientId : String
  fileCount : Nat
deriving DecidableEq, Repr

/-- Append a series under its modality key, creating the key at the end on
first sight (`result.series_by_modality`). -/
def addSeriesByModality (m : List (String × List SeriesRec)) (s : SeriesRec) :
    List (String × List SeriesRec) :=
  match m with
  | [] => [(s.modality, [s])]
  | (k, l) :: rest =>
    if k = s.modality then (k, l ++ [s]) :: rest
    else (k, l) :: addSeriesByModality rest s

/-- Build series from the groups: the first file's metadata describes the
series. -/
def buildSeries (groups : List (String × List DicomTags)) :
    List (String × List SeriesRec) :=
  groups.foldl
    (fun acc g =>
      match g.2 with
      | [] => acc
      | t :: _ => addSeriesByModality acc ⟨g.1, t.modality, t.patientId, g.2.length⟩)
    []

/-- The `BatchScanResult` fields the claims talk about. -/
structure ScanOutcome where
  total_dicom_files : Nat
  valid_dicom_files : Nat
  total_series : Nat
  series_by_modality : List (String × List SeriesRec)
  scan_errors : List String
deriving DecidableEq, Repr

/-- Embedding of `BatchProcessor.scan_directory` on the files found under the root. -/
def scan_directory (files : List (Option DicomTags))
    (patientFilter modalityFilter : Option (List String)) : ScanOutcome :=
  let acc := files.foldl (scanStep patientFilter modalityFilter) ⟨0, []⟩
  let sbm := buildSeries acc.groups
  { total_dicom_files := files.length
    valid_dicom_files := acc.valid
    total_series := (sbm.map (fun p => p.2.length)).sum
    series_by_modality := sbm
    scan_errors := [] }

/-! ## Mammography edge-margin scrub —
`MammographyConverter.remove_sensitive_info`
(`src/src/core/converters/mammography_converter.py`, lines 192–227).

The 2D image is a list of rows of integer pixel values.  Margins are
`int(height*0.1)` and `int(width*0.05)`; float truncation agrees with the
integer divisions `height/10` and `width/20` on all image sizes at issue
(both are `0` exactly when `height < 10` resp. `width < 20`).  NumPy slice
assignment `a[-m:] = v` starts at index `len - m`, except that `-0` is `0`,
so `m = 0` selects the whole axis. -/

/-- Python slice start for `a[-m:]` on an axis of length `len`. -/
def pyNegStart (m len : Nat) : Nat :=
  if m = 0 then 0 else len - m

def constRow (r : List Int) (v : Int) : List Int :=
  r.map (fun _ => v)

/-- NumPy `img[:m, :] = v`. -/
def setRowsUpTo : List (List Int) → Nat → Int → List (List Int)
  | [], _, _ => []
  | r :: rs, 0, _ => r :: rs
  | r :: rs, m + 1, v => constRow r v :: setRowsUpTo rs m v

/-- rows with index `≥ start` become constant (`img[s:, :] = v`). -/
def setRowsFromIdx : List (List Int) → Nat → Int → List (List Int)
  | [], _, _ => []
  | r :: rs, 0, v => constRow r v :: setRowsFromIdx rs 0 v
  | r :: rs, s + 1, v => r :: setRowsFromIdx rs s v

/-- NumPy `row[:m] = v`. -/
def setColsUpTo : List Int → Nat → Int → List Int
  | [], _, _ => []
  | x :: xs, 0, _ => x :: xs
  | _ :: xs, m + 1, v => v :: setColsUpTo xs m v

/-- entries with index `≥ start` become `v` (`row[s:] = v`). -/
def setColsFromIdx : List Int → Nat → Int → List Int
  | [], _, _ => []
  | _ :: xs, 0, v => v :: setColsFromIdx xs 0 v
  | x :: xs, s + 1, v => x :: setColsFromIdx xs s v

def listMinInt : List Int → Int
  | [] => 0
  | x :: xs => xs.foldl min x

/-- NumPy `img_array.min()` over a 2D array. -/
def npMin2 (img : List (List Int)) : Int :=
  listMinInt img.flatten

/-- Embedding of `MammographyConverter.remove_sensitive_info`. -/
def remove_sensitive_info (img : List (List Int)) : List (List Int) :=
  let height := img.length
  let width := (img.headD []).length
  let bg := npMin2 img
  let topMargin := height / 10
  let bottomMargin := height / 10
  let a := setRowsUpTo img topMargin bg
  let b := setRowsFromIdx a (pyNegStart bottomMargin height) bg
  let leftMargin := width / 20
  let rightMargin := width / 20
  let c := b.map (fun r => setColsUpTo r leftMargin bg)
  c.map (fun r => setColsFromIdx r (pyNegStart rightMargin width) bg)

/-! ## Contour-to-mask rasterization.

Two implementations exist:
* `RadiotherapyConverter.convert_rtstruct_to_masks`
  (`src/src/core/converters/radiotherapy_converter.py`, lines 154–202):
  allocates `np.zeros(reference_shape)` and, for each contour with at least
  9 coordinates, executes `pass` — the mask is returned all-zero.
* legacy `convert_rtstruct_to_masks`
  (`src/legacy/dicom2nii_breast_rd_rp_rs.py`, lines 125–249): computes the
  slice index `int((z - origin_z)/slice_spacing)`, converts each contour
  point to integer pixel coordinates, and if more than 2 points survive the
  bounds check, marks those points and every pixel within a ±3 box around
  each of them — a boundary marking plus fixed-radius dilation, not an
  interior fill. -/

/-- Python `int()` truncation toward zero on rationals. -/
def ratTrunc (q : ℚ) : Int := Int.tdiv q.num q.den

/-- An in-plane contour point in physical millimetres
(`contour_data[:, :2]` row). -/
structure ContourPt where
  x : ℚ
  y : ℚ
deriving DecidableEq, Repr

/-- Legacy pixel conversion of one contour point, with
`pixel_spacing = [aff11, aff00]` and `img_origin = [o1, o0]` as in the
code: returns `(x, y)` where `y = int((p.x - o1)/aff11)` and
`x = int((p.y - o0)/aff00)`. -/
def legacyToPixel (aff00 aff11 o0 o1 : ℚ) (p : ContourPt) : Int × Int :=
  (ratTrunc ((p.y - o0) / aff00), ratTrunc ((p.x - o1) / aff11))

/-- Bounds test `0 <= x < img_shape[0] and 0 <= y < img_shape[1]`. -/
def inShape (shape1 shape2 : Nat) (c : Int × Int) : Bool :=
  decide (0 ≤ c.1) && decide (c.1 < (shape1 : Int)) &&
  decide (0 ≤ c.2) && decide (c.2 < (shape2 : Int))

/-- The `pixel_coords` list of the legacy loop. -/
def legacy_pixel_coords (shape1 shape2 : Nat) (aff00 aff11 o0 o1 : ℚ)
    (pts : List ContourPt) : List (Int × Int) :=
  (pts.map (legacyToPixel aff00 aff11 o0 o1)).filter (inShape shape1 shape2)

def dilationOffsets : List Int := [-3, -2, -1, 0, 1, 2, 3]

/-- All pixels the legacy loop sets for one contour: the contour points
themselves plus the ±3 dilation box around each, all bounds-checked. -/
def legacy_marked (shape1 shape2 : Nat) (aff00 aff11 o0 o1 : ℚ)
    (pts : List ContourPt) : List (Int × Int) :=
  let coords := legacy_pixel_coords shape1 shape2 aff00 aff11 o0 o1 pts
  if coords.length > 2 then
    coords ++
      dilationOffsets.flatMap (fun i =>
        dilationOffsets.flatMap (fun j =>
          coords.filterMap (fun c =>
            if inShape shape1 shape2 (c.1 + i, c.2 + j) then
              some (c.1 + i, c.2 + j)
            else none)))
  else []

/-- Legacy `int((slice_pos - ct_origin[2]) / slice_spacing)`. -/
def legacy_slice_index (aff22 o2 z : ℚ) : Int :=
  ratTrunc ((z - o2) / aff22)

/-- The legacy mask for a single contour at plane `z`: voxel
`(k, x, y)` is set iff `k` is the (in-range) slice index and `(x, y)` was
marked. -/
def legacy_contour_mask (shape0 shape1 shape2 : Nat) (aff00 aff11 aff22 o0 o1 o2 : ℚ)
    (z : ℚ) (pts : List ContourPt) (k x y : Int) : Bool :=
  let si := legacy_slice_index aff22 o2 z
  decide (0 ≤ si) && decide (si < (shape0 : Int)) && decide (k = si) &&
    ((x, y) ∈ legacy_marked shape1 shape2 aff00 aff11 o0 o1 pts)

/-- Embedding of `RadiotherapyConverter.convert_rtstruct_to_masks` per-contour body:
`if len(contour_data) >= 9: ... pass` — the mask is returned unchanged. -/
def process_contour_src (mask : Nat → Nat → Nat → Bool) (_contourData : List ℚ) :
    Nat → Nat → Nat → Bool :=
  mask

/-- The current converter's mask for one ROI: fold the contours over the
all-zero mask. -/
def convert_rtstruct_to_masks_src (contours : List (List ℚ)) :
    Nat → Nat → Nat → Bool :=
  contours.foldl process_contour_src (fun _ _ _ => false)

/-- Modelled from the spec: the exact interior fill mandated by §4.5 is
implemented nowhere in the repository; for the claim's square contour with
corners (10,10),(10,20),(20,20),(20,10) mm on a 1 mm grid with origin
(0,0,z0) the spec prescribes exactly the voxels `[10,20) × [10,20)` on the
matching slice. -/
def spec_square_mask (r c : Nat) : Bool :=
  decide (10 ≤ r) && decide (r < 20) && decide (10 ≤ c) && decide (c < 20)

/-- The claim's square contour. -/
def squareContour : List ContourPt :=
  [⟨10, 10⟩, ⟨10, 20⟩, ⟨20, 20⟩, ⟨20, 10⟩]

end D2N

namespace D2N

/-- Queue entries produced by a run of `add_task` calls starting at task
counter (and clock) `base`: each gets the next id and creation stamp. -/
def enqueueEntries (base : Nat) : List Int → List QEntry
  | [] => []
  | p :: ps => ⟨p, base, base⟩ :: enqueueEntries (base + 1) ps

/-- Structural invariant of reachable manager states: queued tasks are
pending, active tasks are running or cancelled, all known ids are below the
counter, ids are duplicate-free, and ids not yet allocated carry the
default record. -/
def goodState (s : MState) : Prop :=
  (∀ e ∈ s.queue, (s.tasks e.id).status = .pending) ∧
  (∀ id ∈ s.active, (s.tasks id).status = .running ∨ (s.tasks id).status = .cancelled) ∧
  (∀ e ∈ s.queue, e.id < s.counter) ∧
  (∀ id ∈ s.active, id < s.counter) ∧
  (s.queue.map QEntry.id).Nodup ∧
  s.active.Nodup ∧
  (∀ j, s.counter ≤ j → s.tasks j = {})

/-- The CT series' per-file header tags in the C8 scan scenario. -/
def ctTags : DicomTags := ⟨"uid-ct", "CT", "p1", "st1"⟩

/-- The MRI series' per-file header tags (modality tag "MRI", which is in
the supported set). -/
def mrTags : DicomTags := ⟨"uid-mr", "MRI", "p1", "st1"⟩

/-- The unsupported-modality series' per-file header tags ("PT" is not in
`supported_modalities`). -/
def ptTags : DicomTags := ⟨"uid-pt", "PT", "p2", "st2"⟩

/-- The scanned directory of the C8 scenario: one CT series with `k1 + 1`
files, one MRI series with `k2 + 1` files, and one unsupported-modality
series with `k3 + 1` files. -/
def c8_files (k1 k2 k3 : Nat) : List (Option DicomTags) :=
  List.replicate (k1 + 1) (some ctTags) ++ List.replicate (k2 + 1) (some mrTags) ++
    List.replicate (k3 + 1) (some ptTags)

/-! ## Theorems -/

/-- Any path whose upper-cased string contains the keyword "CT" is detected
as CT, before any later keyword group is consulted and regardless of the
header. -/
theorem detect_ct_keyword_wins (path : String) (hdr : Option String)
    (h : strContainsUpper path "CT" = true) :
    detect_modality path hdr = some "CT" := by
  unfold detect_modality
  have hk : anyKeyword path ct_keywords = true := by
    simp only [anyKeyword, ct_keywords, List.any_eq_true]
    exact ⟨"CT", by simp, h⟩
  simp [hk]

/-- Claim C9 (confirmed): path-keyword detection tests the groups in the
fixed order CT, MRI, MG, RT by substring containment on the upper-cased
path, so any path containing "CT" — in particular one containing
"RTSTRUCT", whose upper-cased form contains the substring "CT" — is
classified as CT, never as RT. -/
theorem claim_C9 :
    (∀ (path : String) (hdr : Option String),
      strContainsUpper path "CT" = true → detect_modality path hdr = some "CT") ∧
    strContainsUpper "/data/RTSTRUCT/file001" "CT" = true ∧
    (∀ hdr : Option String,
      detect_modality "/data/RTSTRUCT/file001" hdr = some "CT") ∧
    detect_modality "/data/RTSTRUCT/file001" none ≠ some "RT" := by
  refine ⟨detect_ct_keyword_wins, by decide, fun hdr => ?_, by decide⟩
  exact detect_ct_keyword_wins _ hdr (by decide)

/-- Witness for C9's hypothesis at a concrete path. -/
theorem claim_C9_witness :
    strContainsUpper "BASELINE-HEAD-CT" "CT" = true ∧
    detect_modality "BASELINE-HEAD-CT" none = some "CT" :=
  ⟨by decide, claim_C9.1 "BASELINE-HEAD-CT" none (by decide)⟩

/-- Claim C1 is false on the code: `_detect_modality` tests path keywords
*before* the header tag.  For the input path "/data/ct_scan.dcm" whose
readable header carries the supported modality tag "MR" (mapped to MRI by
`_detect_modality_from_dicom`), detection returns CT from the path keyword,
not the header's MRI. -/
theorem claim_C1_counterexample :
    detect_modality "/data/ct_scan.dcm" (some "MR") = some "CT" ∧
    detect_modality_from_dicom (some "MR") = some "MRI" ∧
    detect_modality "/data/ct_scan.dcm" (some "MR") ≠ some "MRI" := by
  refine ⟨by decide, by decide, by decide⟩

/-- Claim C1 as amended: detection is deterministic with path keywords
first (groups in order CT, MRI, MG, RT) and the header tag consulted only
when no path keyword matches and the path has a `.dcm`/`.dicom` suffix;
for such inputs the detected modality equals the header tag's modality. -/
theorem claim_C1_amended (path : String) (hdr : Option String)
    (h1 : anyKeyword path ct_keywords = false)
    (h2 : anyKeyword path mri_keywords = false)
    (h3 : anyKeyword path mg_keywords = false)
    (h4 : anyKeyword path rt_keywords = false)
    (h5 : lowerEndsWith path ".dcm" = true ∨ lowerEndsWith path ".dicom" = true) :
    detect_modality path hdr = detect_modality_from_dicom hdr := by
  unfold detect_modality
  rcases h5 with h | h <;> simp [h1, h2, h3, h4, h]

/-- Witness for the amended C1 at a concrete input: a path matching no
keyword whose header tag "MG" decides the modality. -/
theorem claim_C1_amended_witness :
    anyKeyword "/a/b0001.dcm" ct_keywords = false ∧
    anyKeyword "/a/b0001.dcm" mri_keywords = false ∧
    anyKeyword "/a/b0001.dcm" mg_keywords = false ∧
    anyKeyword "/a/b0001.dcm" rt_keywords = false ∧
    lowerEndsWith "/a/b0001.dcm" ".dcm" = true ∧
    detect_modality "/a/b0001.dcm" (some "MG") = some "MG" := by
  refine ⟨by decide, by decide, by decide, by decide, by decide, ?_⟩
  have h := claim_C1_amended "/a/b0001.dcm" (some "MG") (by decide) (by decide)
    (by decide) (by decide) (Or.inl (by decide))
  rw [h]
  decide

/-! ### Priority-queue order (for C3) -/

theorem qle_refl (a : QEntry) : qle a a := by
  unfold qle; omega

theorem qle_total (a b : QEntry) : qle a b ∨ qle b a := by
  unfold qle; omega

theorem qle_trans {a b c : QEntry} (h1 : qle a b) (h2 : qle b c) : qle a c := by
  unfold qle at *; omega

theorem extractMin_length (x : QEntry) (l : List QEntry) :
    (extractMin x l).2.length = l.length := by
  induction l generalizing x with
  | nil => rfl
  | cons y ys ih => by_cases h : qle x y <;> simp [extractMin, h, ih]

theorem extractMin_perm (x : QEntry) (l : List QEntry) :
    List.Perm ((extractMin x l).1 :: (extractMin x l).2) (x :: l) := by
  induction l generalizing x with
  | nil => simp [extractMin]
  | cons y ys ih =>
    by_cases h : qle x y
    · simp only [extractMin, if_pos h]
      exact (List.Perm.swap _ _ _).trans (((ih x).cons y).trans (List.Perm.swap _ _ _))
    · simp only [extractMin, if_neg h]
      exact (List.Perm.swap _ _ _).trans ((ih y).cons x)

theorem extractMin_min (x : QEntry) (l : List QEntry) :
    ∀ z ∈ x :: l, qle (extractMin x l).1 z := by
  induction l generalizing x with
  | nil =>
    intro z hz
    rw [List.mem_singleton] at hz
    rw [hz]
    exact qle_refl x
  | cons y ys ih =>
    intro z hz
    by_cases h : qle x y
    · simp only [extractMin, if_pos h]
      rcases List.mem_cons.1 hz with hz1 | hz'
      · rw [hz1]; exact ih x x (List.mem_cons_self x ys)
      · rcases List.mem_cons.1 hz' with hz2 | hz3
        · rw [hz2]; exact qle_trans (ih x x (List.mem_cons_self x ys)) h
        · exact ih x z (List.mem_cons_of_mem x hz3)
    · have hyx : qle y x := (qle_total x y).resolve_left h
      simp only [extractMin, if_neg h]
      rcases List.mem_cons.1 hz with hz1 | hz'
      · rw [hz1]; exact qle_trans (ih y y (List.mem_cons_self y ys)) hyx
      · rcases List.mem_cons.1 hz' with hz2 | hz3
        · rw [hz2]; exact ih y y (List.mem_cons_self y ys)
        · exact ih y z (List.mem_cons_of_mem y hz3)

theorem drainAux_perm :
    ∀ (fuel : Nat) (l : List QEntry), l.length ≤ fuel →
      List.Perm (drainAux fuel l) l := by
  intro fuel
  induction fuel with
  | zero =>
    intro l h
    have : l = [] := List.eq_nil_of_length_eq_zero (Nat.le_zero.1 h)
    subst this; simp [drainAux]
  | succ n ih =>
    intro l h
    match l with
    | [] => simp [drainAux]
    | x :: xs =>
      have hlen : (extractMin x xs).2.length = xs.length := extractMin_length x xs
      have hrec : List.Perm (drainAux n (extractMin x xs).2) (extractMin x xs).2 := by
        apply ih
        simp only [List.length_cons] at h
        omega
      exact (hrec.cons (extractMin x xs).1).trans (extractMin_perm x xs)

theorem drainQueue_perm (l : List QEntry) : List.Perm (drainQueue l) l :=
  drainAux_perm l.length l le_rfl

theorem drainAux_sorted :
    ∀ (fuel : Nat) (l : List QEntry), l.length ≤ fuel →
      List.Pairwise qle (drainAux fuel l) := by
  intro fuel
  induction fuel with
  | zero => intro l _; simp [drainAux]
  | succ n ih =>
    intro l h
    match l with
    | [] => simp [drainAux]
    | x :: xs =>
      have hlen : (extractMin x xs).2.length = xs.length := extractMin_length x xs
      have hle : (extractMin x xs).2.length ≤ n := by
        simp only [List.length_cons] at h
        omega
      refine List.Pairwise.cons ?_ (ih _ hle)
      intro z hz
      have hz2 : z ∈ (extractMin x xs).2 := (drainAux_perm n _ hle).mem_iff.1 hz
      have hz3 : z ∈ x :: xs :=
        (extractMin_perm x xs).mem_iff.1 (List.mem_cons_of_mem _ hz2)
      exact extractMin_min x xs z hz3

theorem drainQueue_sorted (l : List QEntry) : List.Pairwise qle (drainQueue l) :=
  drainAux_sorted l.length l le_rfl

/-- A pure sequence of `add_task` calls from a state whose counter and
clock agree fills the queue with consecutively stamped entries. -/
theorem foldl_add_queue :
    ∀ (ps : List Int) (s : MState), s.counter = s.clock →
      (List.foldl mstep s (ps.map MEvent.add)).queue =
        s.queue ++ enqueueEntries s.counter ps := by
  intro ps
  induction ps with
  | nil => intro s _; simp [enqueueEntries]
  | cons p ps ih =>
    intro s hs
    simp only [List.map_cons, List.foldl_cons]
    rw [ih _ (by simp [mstep, hs])]
    simp [mstep, enqueueEntries, hs]

theorem mrun_adds_queue (ps : List Int) :
    (mrun (ps.map MEvent.add)).queue = enqueueEntries 0 ps := by
  unfold mrun
  rw [foldl_add_queue ps initState rfl]
  rfl

/-- Claim C3 (confirmed): tasks enqueued via `add_task` are dequeued in
strictly descending priority order, with equal-priority tasks in ascending
creation-time order (`qle` states exactly this pairwise relation on the
dequeue sequence), the dequeue sequence is a permutation of the enqueued
tasks, and priorities [5,1,5] submitted in that order dequeue as
task0(5), task2(5), task1(1). -/
theorem claim_C3 :
    (∀ ps : List Int,
      List.Pairwise qle (drainQueue ((mrun (ps.map MEvent.add)).queue)) ∧
      List.Perm (drainQueue ((mrun (ps.map MEvent.add)).queue))
        ((mrun (ps.map MEvent.add)).queue)) ∧
    (drainQueue ((mrun ([5, 1, 5].map MEvent.add)).queue)).map QEntry.id =
      [0, 2, 1] := by
  refine ⟨fun ps => ⟨drainQueue_sorted _, drainQueue_perm _⟩, by decide⟩

/-! ### Manager state-machine invariants (for C2 and C6) -/

theorem goodState_init : goodState initState := by
  refine ⟨?_, ?_, ?_, ?_, ?_, ?_, ?_⟩ <;> simp [initState, goodState]

theorem goodState_step {s : MState} (hs : goodState s) (e : MEvent) :
    goodState (mstep s e) := by
  obtain ⟨hq, ha, hqc, hac, hqn, han, hfresh⟩ := hs
  cases e with
  | add pri =>
    refine ⟨?_, ?_, ?_, ?_, ?_, ?_, ?_⟩
    · intro e he
      dsimp only [mstep] at he ⊢
      rcases List.mem_append.1 he with h | h
      · rw [if_neg (by have := hqc e h; omega)]
        exact hq e h
      · rw [List.mem_singleton] at h
        rw [h, if_pos rfl]
    · intro id hid
      dsimp only [mstep] at hid ⊢
      rw [if_neg (by have := hac id hid; omega)]
      exact ha id hid
    · intro e he
      dsimp only [mstep] at he ⊢
      rcases List.mem_append.1 he with h | h
      · have := hqc e h; omega
      · rw [List.mem_singleton] at h
        rw [h]; exact Nat.lt_succ_self _
    · intro id hid
      dsimp only [mstep] at hid ⊢
      have := hac id hid; omega
    · dsimp only [mstep]
      rw [List.map_append]
      refine List.Nodup.append hqn (by simp) ?_
      intro a haq hax
      simp only [List.map_cons, List.map_nil, List.mem_singleton] at hax
      rcases List.mem_map.1 haq with ⟨e, he, heq⟩
      have := hqc e he
      omega
    · exact han
    · intro j hj
      dsimp only [mstep] at hj ⊢
      rw [if_neg (by omega)]
      exact hfresh j (by omega)
  | cancel cid =>
    by_cases h : cid ∈ s.active
    · have hmain : mstep s (.cancel cid) =
          { s with tasks := fun j =>
              if j = cid then { s.tasks cid with status := .cancelled }
              else s.tasks j } := by
        dsimp only [mstep]; rw [if_pos h]
      rw [hmain]
      refine ⟨?_, ?_, hqc, hac, hqn, han, ?_⟩
      · intro e he
        dsimp only at he ⊢
        have hne : e.id ≠ cid := by
          intro heq
          have h1 := hq e he
          rcases ha cid h with h2 | h2 <;> rw [heq] at h1 <;> rw [h1] at h2 <;>
            simp at h2
        rw [if_neg hne]
        exact hq e he
      · intro id hid
        dsimp only at hid ⊢
        by_cases hie : id = cid
        · rw [if_pos hie]
          exact Or.inr rfl
        · rw [if_neg hie]
          exact ha id hid
      · intro j hj
        dsimp only at hj ⊢
        rw [if_neg (by have := hac cid h; omega)]
        exact hfresh j hj
    · have hmain : mstep s (.cancel cid) = s := by
        dsimp only [mstep]; rw [if_neg h]
      rw [hmain]
      exact ⟨hq, ha, hqc, hac, hqn, han, hfresh⟩
  | deque =>
    cases hqe : s.queue with
    | nil =>
      have hmain : mstep s .deque = s := by
        dsimp only [mstep]; rw [hqe]
      rw [hmain]
      exact ⟨hq, ha, hqc, hac, hqn, han, hfresh⟩
    | cons x xs =>
      have hm : (extractMin x xs).1 ∈ s.queue := by
        rw [hqe]
        exact (extractMin_perm x xs).mem_iff.1 (List.mem_cons_self _ _)
      have hrest_sub : ∀ e ∈ (extractMin x xs).2, e ∈ s.queue := by
        intro e he
        rw [hqe]
        exact (extractMin_perm x xs).mem_iff.1 (List.mem_cons_of_mem _ he)
      have hids : (((extractMin x xs).1 :: (extractMin x xs).2).map QEntry.id).Nodup := by
        have hp := (extractMin_perm x xs).map QEntry.id
        rw [hqe] at hqn
        exact hp.nodup_iff.2 hqn
      have hm_notin_rest : (extractMin x xs).1.id ∉ ((extractMin x xs).2.map QEntry.id) := by
        simp only [List.map_cons, List.nodup_cons] at hids
        exact hids.1
      have hrest_nodup : ((extractMin x xs).2.map QEntry.id).Nodup := by
        simp only [List.map_cons, List.nodup_cons] at hids
        exact hids.2
      have hm_pending := hq _ hm
      have hm_notact : (extractMin x xs).1.id ∉ s.active := by
        intro hmem
        rcases ha _ hmem with h2 | h2 <;> rw [hm_pending] at h2 <;> simp at h2
      have hmain : mstep s .deque =
          { s with
            clock := s.clock + 1
            queue := (extractMin x xs).2
            active := (extractMin x xs).1.id :: s.active
            tasks := fun j =>
              if j = (extractMin x xs).1.id then
                { s.tasks (extractMin x xs).1.id with
                  status := .running, started := some s.clock }
              else s.tasks j } := by
        dsimp only [mstep]; rw [hqe]
      rw [hmain]
      refine ⟨?_, ?_, ?_, ?_, hrest_nodup, List.Nodup.cons hm_notact han, ?_⟩
      · intro e he
        dsimp only at he ⊢
        have hne : e.id ≠ (extractMin x xs).1.id := by
          intro heq
          exact hm_notin_rest (heq ▸ List.mem_map_of_mem QEntry.id he)
        rw [if_neg hne]
        exact hq e (hrest_sub e he)
      · intro id hid
        dsimp only at hid ⊢
        rcases List.mem_cons.1 hid with h1 | h1
        · rw [h1, if_pos rfl]
          exact Or.inl rfl
        · have hne : id ≠ (extractMin x xs).1.id := by
            intro heq
            exact hm_notact (heq ▸ h1)
          rw [if_neg hne]
          exact ha id h1
      · intro e he
        dsimp only at he ⊢
        exact hqc e (hrest_sub e he)
      · intro id hid
        dsimp only at hid ⊢
        rcases List.mem_cons.1 hid with h1 | h1
        · rw [h1]; exact hqc _ hm
        · exact hac id h1
      · intro j hj
        dsimp only at hj ⊢
        rw [if_neg (by have := hqc _ hm; omega)]
        exact hfresh j hj
  | finish fid ok =>
    by_cases h : fid ∈ s.active
    · have hmain : mstep s (.finish fid ok) =
          { s with
            clock := s.clock + 1
            active := s.active.erase fid
            doneIds := fid :: s.doneIds
            tasks := fun j =>
              if j = fid then
                { s.tasks fid with
                  status := if ok then .completed else .failed,
                  finishedAt := some s.clock }
              else s.tasks j } := by
        dsimp only [mstep]; rw [if_pos h]
      rw [hmain]
      refine ⟨?_, ?_, hqc, ?_, hqn, List.Nodup.erase fid han, ?_⟩
      · intro e he
        dsimp only at he ⊢
        have hne : e.id ≠ fid := by
          intro heq
          have h1 := hq e he
          rcases ha fid h with h2 | h2 <;> rw [heq] at h1 <;> rw [h1] at h2 <;>
            simp at h2
        rw [if_neg hne]
        exact hq e he
      · intro id hid
        dsimp only at hid ⊢
        have hin : id ∈ s.active := List.mem_of_mem_erase hid
        have hne : id ≠ fid := by
          intro heq
          rw [heq] at hid
          exact (List.Nodup.not_mem_erase han) hid
        rw [if_neg hne]
        exact ha id hin
      · intro id hid
        dsimp only at hid ⊢
        exact hac id (List.mem_of_mem_erase hid)
      · intro j hj
        dsimp only at hj ⊢
        rw [if_neg (by have := hac fid h; omega)]
        exact hfresh j hj
    · have hmain : mstep s (.finish fid ok) = s := by
        dsimp only [mstep]; rw [if_neg h]
      rw [hmain]
      exact ⟨hq, ha, hqc, hac, hqn, han, hfresh⟩
theorem goodState_foldl :
    ∀ (evs : List MEvent) (s : MState), goodState s →
      goodState (List.foldl mstep s evs) := by
  intro evs
  induction evs with
  | nil => intro s hs; exact hs
  | cons e evs ih => intro s hs; exact ih _ (goodState_step hs e)

theorem terminal_stays_step {s : MState} (hs : goodState s) (id : Nat)
    (ht : statusOf s id = .completed ∨ statusOf s id = .failed) (e : MEvent) :
    statusOf (mstep s e) id = statusOf s id := by
  obtain ⟨hq, ha, hqc, hac, hqn, han, hfresh⟩ := hs
  have hid_lt : id < s.counter := by
    by_contra hcon
    have hdef := hfresh id (by omega)
    rw [statusOf, hdef] at ht
    rcases ht with h | h <;> simp at h
  have hnact : id ∉ s.active := by
    intro hmem
    rcases ha id hmem with h2 | h2 <;> rcases ht with h1 | h1 <;>
      rw [statusOf, h2] at h1 <;> simp at h1
  have hnq : ∀ e ∈ s.queue, e.id ≠ id := by
    intro e he heq
    have h2 := hq e he
    rw [heq] at h2
    rcases ht with h1 | h1 <;> rw [statusOf, h2] at h1 <;> simp at h1
  cases e with
  | add pri =>
    dsimp only [mstep, statusOf]
    rw [if_neg (by omega)]
  | cancel cid =>
    by_cases h : cid ∈ s.active
    · have hne : id ≠ cid := by
        intro heq
        rw [heq] at hnact
        exact hnact h
      dsimp only [mstep, statusOf]
      rw [if_pos h]
      dsimp only
      rw [if_neg hne]
    · dsimp only [mstep, statusOf]
      rw [if_neg h]
  | deque =>
    cases hqe : s.queue with
    | nil =>
      dsimp only [mstep, statusOf]
      rw [hqe]
    | cons x xs =>
      have hm : (extractMin x xs).1 ∈ s.queue := by
        rw [hqe]
        exact (extractMin_perm x xs).mem_iff.1 (List.mem_cons_self _ _)
      have hne : id ≠ (extractMin x xs).1.id := by
        intro heq
        exact hnq _ hm heq.symm
      dsimp only [mstep, statusOf]
      rw [hqe]
      dsimp only
      rw [if_neg hne]
  | finish fid ok =>
    by_cases h : fid ∈ s.active
    · have hne : id ≠ fid := by
        intro heq
        rw [heq] at hnact
        exact hnact h
      dsimp only [mstep, statusOf]
      rw [if_pos h]
      dsimp only
      rw [if_neg hne]
    · dsimp only [mstep, statusOf]
      rw [if_neg h]

theorem terminal_stays (id : Nat) :
    ∀ (more : List MEvent) (s : MState), goodState s →
      (statusOf s id = .completed ∨ statusOf s id = .failed) →
      statusOf (List.foldl mstep s more) id = statusOf s id := by
  intro more
  induction more with
  | nil => intro s _ _; rfl
  | cons e more ih =>
    intro s hs ht
    have h1 := terminal_stays_step hs id ht e
    have ht' : statusOf (mstep s e) id = .completed ∨
        statusOf (mstep s e) id = .failed := by
      rw [h1]; exact ht
    rw [List.foldl_cons, ih _ (goodState_step hs e) ht', h1]

/-- Claim C6 is false on the code: `cancel_task` on a running task sets
status cancelled, but when the converter returns, `_process_task`
unconditionally overwrites the status with completed (or failed) — a
transition out of the terminal state cancelled. -/
theorem claim_C6_counterexample :
    statusOf (mrun [MEvent.add 0, MEvent.deque, MEvent.cancel 0]) 0 =
      Status.cancelled ∧
    statusOf (mrun [MEvent.add 0, MEvent.deque, MEvent.cancel 0,
      MEvent.finish 0 true]) 0 = Status.completed :=
  ⟨by decide, by decide⟩

/-- Claim C6 as amended: completed and failed are terminal — no later
event changes the status of a completed or failed task; but cancelled is
not terminal for a task the worker is still processing: the worker's
finalization step overwrites any current status (including cancelled) with
completed or failed. -/
theorem claim_C6_amended :
    (∀ (evs more : List MEvent) (id : Nat),
      statusOf (mrun evs) id = Status.completed ∨
        statusOf (mrun evs) id = Status.failed →
      statusOf (mrun (evs ++ more)) id = statusOf (mrun evs) id) ∧
    (∀ (evs : List MEvent) (id : Nat) (ok : Bool),
      id ∈ (mrun evs).active →
      statusOf (mstep (mrun evs) (MEvent.finish id ok)) id =
        (if ok then Status.completed else Status.failed)) := by
  constructor
  · intro evs more id ht
    have hg : goodState (mrun evs) := goodState_foldl evs initState goodState_init
    show statusOf (List.foldl mstep initState (evs ++ more)) id = _
    rw [List.foldl_append]
    exact terminal_stays id more (mrun evs) hg ht
  · intro evs id ok h
    simp [mstep, h, statusOf]

/-- Witness for the amended C6 on concrete traces: a completed task keeps
its status across further events, and finalizing an active task overwrites
its (cancelled) status with failed. -/
theorem claim_C6_amended_witness :
    (statusOf (mrun [MEvent.add 0, MEvent.deque, MEvent.finish 0 true]) 0 =
        Status.completed ∨
      statusOf (mrun [MEvent.add 0, MEvent.deque, MEvent.finish 0 true]) 0 =
        Status.failed) ∧
    statusOf (mrun ([MEvent.add 0, MEvent.deque, MEvent.finish 0 true] ++
      [MEvent.cancel 0, MEvent.deque])) 0 =
      statusOf (mrun [MEvent.add 0, MEvent.deque, MEvent.finish 0 true]) 0 ∧
    0 ∈ (mrun [MEvent.add 1, MEvent.deque, MEvent.cancel 0]).active ∧
    statusOf (mstep (mrun [MEvent.add 1, MEvent.deque, MEvent.cancel 0])
      (MEvent.finish 0 false)) 0 =
      (if false then Status.completed else Status.failed) :=
  ⟨Or.inl (by decide),
   claim_C6_amended.1 [MEvent.add 0, MEvent.deque, MEvent.finish 0 true]
     [MEvent.cancel 0, MEvent.deque] 0 (Or.inl (by decide)),
   by decide,
   claim_C6_amended.2 [MEvent.add 1, MEvent.deque, MEvent.cancel 0] 0 false
     (by decide)⟩

/-- Claim C2 is the required behaviour the code does not implement:
`cancel_task` checks only `active_tasks`, so cancelling a still-pending
task is a no-op returning False (the code's own TODO notes the queue does
not support removal), and the task later transitions to running with a
start timestamp. -/
theorem claim_C2_code_eval :
    (∀ (s : MState) (id : Nat), id ∉ s.active →
      mstep s (MEvent.cancel id) = s) ∧
    cancel_task_result (mrun [MEvent.add 0]) 0 = false ∧
    statusOf (mrun [MEvent.add 0, MEvent.cancel 0]) 0 = Status.pending ∧
    statusOf (mrun [MEvent.add 0, MEvent.cancel 0, MEvent.deque]) 0 =
      Status.running ∧
    ((mrun [MEvent.add 0, MEvent.cancel 0, MEvent.deque]).tasks 0).started =
      some 1 := by
  refine ⟨?_, by decide, by decide, by decide, by decide⟩
  intro s id h
  simp [mstep, h]

/-- Witness for C2's general conjunct at a concrete pending task. -/
theorem claim_C2_code_eval_witness :
    (0 ∉ (mrun [MEvent.add 0]).active) ∧
    mstep (mrun [MEvent.add 0]) (MEvent.cancel 0) = mrun [MEvent.add 0] :=
  ⟨by decide, claim_C2_code_eval.1 (mrun [MEvent.add 0]) 0 (by decide)⟩

/-! ### Discretization (C4) -/

/-- Claim C4 is the intended behaviour, which the code does not implement:
the spec's fixed-bin-width rule yields bins [0,0,1,1,2] on the values
[0,24,25,49,50] with width 25, but `discretize_intensity`'s FixedBinWidth
branch merely calls `sitk.BinomialBlur(image, int(value))` — a smoothing
filter, represented symbolically — and computes no bins at all. -/
theorem claim_C4_code_eval :
    spec_fixed_bin_width 25 [0, 24, 25, 49, 50] = [0, 0, 1, 1, 2] ∧
    (∀ (img : SitkImage) (w : Int),
      discretize_intensity img "FixedBinWidth" w = SitkImage.binomialBlur w img) ∧
    discretize_intensity (SitkImage.base [0, 24, 25, 49, 50]) "FixedBinWidth" 25 ≠
      SitkImage.base [0, 0, 1, 1, 2] := by
  refine ⟨?_, fun img w => rfl, ?_⟩
  · norm_num [spec_fixed_bin_width, ratListMin, min_def]
  · simp [discretize_intensity]

/-! ### Contour rasterization (C5) -/

theorem legacy_square_coords :
    legacy_pixel_coords 64 64 1 1 0 0 squareContour =
      [(10, 10), (20, 10), (20, 20), (10, 20)] := by
  norm_num [legacy_pixel_coords, legacyToPixel, squareContour, ratTrunc, inShape,
    List.filter]

theorem foldl_process_contour_src (l : List (List ℚ)) (m : Nat → Nat → Nat → Bool) :
    l.foldl process_contour_src m = m := by
  induction l with
  | nil => rfl
  | cons c cs ih => exact ih

/-- Claim C5 is the intended behaviour, which the code does not implement:
the spec mandates an exact interior fill of [10,20)×[10,20) for the square
contour, but `RadiotherapyConverter.convert_rtstruct_to_masks` leaves the
mask all-zero (its contour loop body is `pass`), and the legacy converter
only marks the contour points plus a ±3 dilation box — the interior voxel
(15,15) stays false and the outside voxel (7,7) becomes true. -/
theorem claim_C5_code_eval :
    spec_square_mask 15 15 = true ∧
    spec_square_mask 7 7 = false ∧
    (∀ (contours : List (List ℚ)) (k i j : Nat),
      convert_rtstruct_to_masks_src contours k i j = false) ∧
    legacy_contour_mask 64 64 64 1 1 1 0 0 0 0 squareContour 0 15 15 = false ∧
    legacy_contour_mask 64 64 64 1 1 1 0 0 0 0 squareContour 0 7 7 = true := by
  have hs : legacy_slice_index 1 0 0 = 0 := by
    norm_num [legacy_slice_index, ratTrunc]
  refine ⟨by decide, by decide, ?_, ?_, ?_⟩
  · intro contours k i j
    rw [convert_rtstruct_to_masks_src, foldl_process_contour_src]
  · unfold legacy_contour_mask legacy_marked
    rw [legacy_square_coords, hs]
    decide
  · unfold legacy_contour_mask legacy_marked
    rw [legacy_square_coords, hs]
    decide

/-! ### Instance-number ordering (C7) -/

/-- Claim C7 is false on the code: a *readable* header without an
`InstanceNumber` gets the default key 0 — the filename fallback fires only
when reading raises.  The file "img_7.dcm" with a readable header lacking
an instance number sorts with key 0 ahead of "img_1.dcm" with instance
number 1, while the claim (key = last filename token = 7) would order it
after. -/
theorem claim_C7_counterexample :
    sort_key ⟨"img_7.dcm", some ⟨none⟩⟩ = 0 ∧
    lastIntToken "img_7.dcm" = 7 ∧
    sort_by_instance_number
        [⟨"img_7.dcm", some ⟨none⟩⟩, ⟨"img_1.dcm", some ⟨some 1⟩⟩] =
      [⟨"img_7.dcm", some ⟨none⟩⟩, ⟨"img_1.dcm", some ⟨some 1⟩⟩] ∧
    sort_by_instance_number
        [⟨"img_7.dcm", some ⟨none⟩⟩, ⟨"img_1.dcm", some ⟨some 1⟩⟩] ≠
      [⟨"img_1.dcm", some ⟨some 1⟩⟩, ⟨"img_7.dcm", some ⟨none⟩⟩] :=
  ⟨by decide, by decide, by decide, by decide⟩

/-- Claim C7 as amended: files are sorted (stably) by a key that is the
header's instance number when the header is readable — defaulting to 0
when the `InstanceNumber` attribute is absent — and the last integer token
of the filename only when reading the header fails; ties keep input order,
and instance numbers [3,1,2] come back ordered [1,2,3]. -/
theorem claim_C7_amended :
    (∀ files : List SliceFile,
      List.Pairwise fileLE (sort_by_instance_number files)) ∧
    (∀ files : List SliceFile,
      List.Perm (sort_by_instance_number files) files) ∧
    (∀ f : SliceFile, f.header = none → sort_key f = lastIntToken f.name) ∧
    (∀ (f : SliceFile) (h : SliceHeader), f.header = some h →
      sort_key f = h.instanceNumber.getD 0) ∧
    (∀ (files : List SliceFile) (k : Int),
      (sort_by_instance_number files).filter (fun f => sort_key f == k) =
        files.filter (fun f => sort_key f == k)) ∧
    (sort_by_instance_number
        [⟨"a.dcm", some ⟨some 3⟩⟩, ⟨"b.dcm", some ⟨some 1⟩⟩,
         ⟨"c.dcm", some ⟨some 2⟩⟩]).map sort_key = [1, 2, 3] := by
  refine ⟨?_, ?_, ?_, ?_, ?_, by decide⟩
  · intro files
    exact List.sorted_insertionSort fileLE files
  · intro files
    exact List.perm_insertionSort fileLE files
  · intro f h
    simp [sort_key, h]
  · intro f h hh
    simp [sort_key, hh]
  · intro files k
    have hmem : ∀ f ∈ files.filter (fun f => sort_key f == k), sort_key f = k := by
      intro f hf
      exact eq_of_beq (@List.of_mem_filter _ (fun f => sort_key f == k) f files hf)
    have hpw : (files.filter (fun f => sort_key f == k)).Pairwise fileLE := by
      apply List.pairwise_of_forall_mem_list
      intro a ha b hb
      show sort_key a ≤ sort_key b
      rw [hmem a ha, hmem b hb]
    have hsub : List.Sublist (files.filter (fun f => sort_key f == k))
        (sort_by_instance_number files) :=
      List.sublist_insertionSort hpw (List.filter_sublist files)
    have hsub2 : List.Sublist (files.filter (fun f => sort_key f == k))
        ((sort_by_instance_number files).filter (fun f => sort_key f == k)) := by
      have h1 := hsub.filter (fun f => sort_key f == k)
      rwa [List.filter_eq_self.mpr
        (fun a ha => @List.of_mem_filter _ (fun f => sort_key f == k) a files ha)] at h1
    have hperm : List.Perm
        ((sort_by_instance_number files).filter (fun f => sort_key f == k))
        (files.filter (fun f => sort_key f == k)) :=
      (List.perm_insertionSort fileLE files).filter _
    exact (List.Sublist.eq_of_length hsub2 hperm.length_eq.symm).symm

/-- Witness for the hypotheses of the amended C7: the fallback key of an
unreadable file and the header key of a readable one, at concrete files. -/
theorem claim_C7_amended_witness :
    ((⟨"scan_042.dcm", none⟩ : SliceFile).header = none ∧
      sort_key ⟨"scan_042.dcm", none⟩ =
        lastIntToken (⟨"scan_042.dcm", none⟩ : SliceFile).name) ∧
    ((⟨"b.dcm", some ⟨some 9⟩⟩ : SliceFile).header = some ⟨some 9⟩ ∧
      sort_key ⟨"b.dcm", some ⟨some 9⟩⟩ =
        (Option.some (9 : Int)).getD 0) :=
  ⟨⟨rfl, claim_C7_amended.2.2.1 ⟨"scan_042.dcm", none⟩ rfl⟩,
   ⟨rfl, claim_C7_amended.2.2.2.1 ⟨"b.dcm", some ⟨some 9⟩⟩ ⟨some 9⟩ rfl⟩⟩

/-! ### Batch scan (C8) -/

theorem addToGroups_new (gs : List (String × List DicomTags)) (uid : String)
    (t : DicomTags) (h : uid ∉ gs.map Prod.fst) :
    addToGroups gs uid t = gs ++ [(uid, [t])] := by
  induction gs with
  | nil => rfl
  | cons g rest ih =>
    obtain ⟨u, l⟩ := g
    simp only [List.map_cons, List.mem_cons] at h
    push_neg at h
    simp only [addToGroups]
    rw [if_neg (fun heq => h.1 heq.symm), ih h.2]
    rfl

theorem addToGroups_existing :
    ∀ (gs1 : List (String × List DicomTags)) (uid : String) (l : List DicomTags)
      (gs2 : List (String × List DicomTags)) (t : DicomTags),
      uid ∉ gs1.map Prod.fst →
      addToGroups (gs1 ++ (uid, l) :: gs2) uid t = gs1 ++ (uid, l ++ [t]) :: gs2 := by
  intro gs1
  induction gs1 with
  | nil =>
    intro uid l gs2 t _
    simp [addToGroups]
  | cons g rest ih =>
    obtain ⟨u, l0⟩ := g
    intro uid l gs2 t h
    simp only [List.map_cons, List.mem_cons] at h
    push_neg at h
    simp only [List.cons_append, addToGroups]
    rw [if_neg (fun heq => h.1 heq.symm)]
    exact congrArg (fun z => (u, l0) :: z) (ih uid l gs2 t h.2)

theorem scanStep_good (pf mf : Option (List String)) (f : Option DicomTags)
    (t : DicomTags) (hparse : parse_dicom_file f = some t)
    (hpf : passesFilter pf t.patientId = true)
    (hmf : passesFilter mf t.modality = true) (acc : ScanAcc) :
    scanStep pf mf acc f =
      ⟨acc.valid + 1, addToGroups acc.groups t.seriesUid t⟩ := by
  simp [scanStep, hparse, hpf, hmf]

theorem scanStep_skip (pf mf : Option (List String)) (f : Option DicomTags)
    (h : parse_dicom_file f = none) (acc : ScanAcc) :
    scanStep pf mf acc f = acc := by
  simp [scanStep, h]

theorem scan_fold_skip (pf mf : Option (List String)) (f : Option DicomTags)
    (h : parse_dicom_file f = none) :
    ∀ (n : Nat) (acc : ScanAcc),
      (List.replicate n f).foldl (scanStep pf mf) acc = acc := by
  intro n
  induction n with
  | zero => intro acc; rfl
  | succ n ih =>
    intro acc
    rw [List.replicate_succ, List.foldl_cons, scanStep_skip pf mf f h]
    exact ih acc

theorem scan_fold_good_existing (pf mf : Option (List String))
    (f : Option DicomTags) (t : DicomTags)
    (hparse : parse_dicom_file f = some t)
    (hpf : passesFilter pf t.patientId = true)
    (hmf : passesFilter mf t.modality = true) :
    ∀ (n v : Nat) (gs1 : List (String × List DicomTags)) (l : List DicomTags)
      (gs2 : List (String × List DicomTags)),
      t.seriesUid ∉ gs1.map Prod.fst →
      (List.replicate n f).foldl (scanStep pf mf)
          ⟨v, gs1 ++ (t.seriesUid, l) :: gs2⟩ =
        ⟨v + n, gs1 ++ (t.seriesUid, l ++ List.replicate n t) :: gs2⟩ := by
  intro n
  induction n with
  | zero => intro v gs1 l gs2 _; simp
  | succ n ih =>
    intro v gs1 l gs2 h
    rw [List.replicate_succ, List.foldl_cons,
      scanStep_good pf mf f t hparse hpf hmf]
    dsimp only
    rw [addToGroups_existing gs1 t.seriesUid l gs2 t h,
      ih (v + 1) gs1 (l ++ [t]) gs2 h]
    have h1 : v + 1 + n = v + (n + 1) := by omega
    rw [h1, List.append_assoc, List.singleton_append, ← List.replicate_succ]

theorem scan_fold_good_new (pf mf : Option (List String))
    (f : Option DicomTags) (t : DicomTags)
    (hparse : parse_dicom_file f = some t)
    (hpf : passesFilter pf t.patientId = true)
    (hmf : passesFilter mf t.modality = true)
    (n v : Nat) (gs : List (String × List DicomTags))
    (h : t.seriesUid ∉ gs.map Prod.fst) :
    (List.replicate (n + 1) f).foldl (scanStep pf mf) ⟨v, gs⟩ =
      ⟨v + (n + 1), gs ++ [(t.seriesUid, List.replicate (n + 1) t)]⟩ := by
  rw [List.replicate_succ, List.foldl_cons,
    scanStep_good pf mf f t hparse hpf hmf]
  dsimp only
  rw [addToGroups_new gs t.seriesUid t h]
  have h2 := scan_fold_good_existing pf mf f t hparse hpf hmf n (v + 1) gs [t] [] h
  rw [show gs ++ [(t.seriesUid, [t])] = gs ++ (t.seriesUid, [t]) :: [] from rfl, h2]
  have h1 : v + 1 + n = v + (n + 1) := by omega
  rw [h1, List.singleton_append, ← List.replicate_succ]

theorem parse_ct : parse_dicom_file (some ctTags) = some ctTags := by decide

theorem parse_mr : parse_dicom_file (some mrTags) = some mrTags := by decide

theorem parse_pt : parse_dicom_file (some ptTags) = none := by decide

/-- Claim C8 (confirmed): scanning a directory with one CT series, one MRI
series and one unsupported-modality series under modality filter
[CT, MRI] groups exactly the two supported series (two modality keys, one
series each, `total_series = 2`); the unsupported series is excluded from
grouping and from the valid-file count, its files still count in
`total_dicom_files`, and no scan errors are recorded. -/
theorem claim_C8 (k1 k2 k3 : Nat) :
    (scan_directory (c8_files k1 k2 k3) none
        (some ["CT", "MRI"])).series_by_modality.map Prod.fst = ["CT", "MRI"] ∧
    (scan_directory (c8_files k1 k2 k3) none
        (some ["CT", "MRI"])).series_by_modality.map (fun p => p.2.length) =
      [1, 1] ∧
    (scan_directory (c8_files k1 k2 k3) none (some ["CT", "MRI"])).total_series
      = 2 ∧
    (scan_directory (c8_files k1 k2 k3) none
        (some ["CT", "MRI"])).total_dicom_files =
      (k1 + 1) + (k2 + 1) + (k3 + 1) ∧
    (scan_directory (c8_files k1 k2 k3) none
        (some ["CT", "MRI"])).valid_dicom_files = (k1 + 1) + (k2 + 1) ∧
    (scan_directory (c8_files k1 k2 k3) none (some ["CT", "MRI"])).scan_errors
      = [] := by
  have hA := scan_fold_good_new none (some ["CT", "MRI"]) (some ctTags) ctTags
    parse_ct (by decide) (by decide) k1 0 [] (by simp)
  have hB := scan_fold_good_new none (some ["CT", "MRI"]) (some mrTags) mrTags
    parse_mr (by decide) (by decide) k2 (0 + (k1 + 1))
    ([] ++ [(ctTags.seriesUid, List.replicate (k1 + 1) ctTags)])
    (by simp only [List.nil_append, List.map_cons, List.map_nil,
          List.mem_singleton]
        decide)
  have hC := scan_fold_skip none (some ["CT", "MRI"]) (some ptTags) parse_pt
    (k3 + 1)
  have hacc : (c8_files k1 k2 k3).foldl (scanStep none (some ["CT", "MRI"]))
      ⟨0, []⟩ =
      ⟨(k1 + 1) + (k2 + 1),
        [(ctTags.seriesUid, List.replicate (k1 + 1) ctTags),
         (mrTags.seriesUid, List.replicate (k2 + 1) mrTags)]⟩ := by
    rw [c8_files, List.foldl_append, List.foldl_append, hA, hB, hC]
    simp
  have hbuild : buildSeries
      [(ctTags.seriesUid, List.replicate (k1 + 1) ctTags),
       (mrTags.seriesUid, List.replicate (k2 + 1) mrTags)] =
      [("CT", [⟨ctTags.seriesUid, "CT", "p1", k1 + 1⟩]),
       ("MRI", [⟨mrTags.seriesUid, "MRI", "p1", k2 + 1⟩])] := by
    simp [buildSeries, List.replicate_succ, addSeriesByModality, ctTags, mrTags]
  have houtcome : scan_directory (c8_files k1 k2 k3) none (some ["CT", "MRI"]) =
      { total_dicom_files := (k1 + 1) + (k2 + 1) + (k3 + 1)
        valid_dicom_files := (k1 + 1) + (k2 + 1)
        total_series := 2
        series_by_modality :=
          [("CT", [⟨ctTags.seriesUid, "CT", "p1", k1 + 1⟩]),
           ("MRI", [⟨mrTags.seriesUid, "MRI", "p1", k2 + 1⟩])]
        scan_errors := [] } := by
    unfold scan_directory
    rw [hacc]
    dsimp only
    rw [hbuild]
    simp [c8_files]
    omega
  rw [houtcome]
  refine ⟨rfl, rfl, rfl, rfl, rfl, rfl⟩

/-! ### Mammography edge-margin scrub (C10) -/

theorem constRow_eq_replicate (r : List Int) (v : Int) (w : Nat)
    (h : r.length = w) : constRow r v = List.replicate w v := by
  subst h
  induction r with
  | nil => rfl
  | cons x xs ih => simp only [constRow, List.map_cons] at ih ⊢; rw [ih]; rfl

theorem setRowsUpTo_zero (img : List (List Int)) (v : Int) :
    setRowsUpTo img 0 v = img := by
  cases img <;> rfl

theorem setColsUpTo_zero (r : List Int) (v : Int) : setColsUpTo r 0 v = r := by
  cases r <;> rfl

theorem pyNegStart_zero (len : Nat) : pyNegStart 0 len = 0 := rfl

theorem setColsFromIdx_zero (r : List Int) (v : Int) :
    setColsFromIdx r 0 v = constRow r v := by
  induction r with
  | nil => rfl
  | cons x xs ih => simp only [setColsFromIdx, constRow, List.map_cons] at ih ⊢; rw [ih]

theorem setRowsFromIdx_zero (img : List (List Int)) (v : Int) :
    setRowsFromIdx img 0 v = img.map (fun r => constRow r v) := by
  induction img with
  | nil => rfl
  | cons r rs ih => simp only [setRowsFromIdx, List.map_cons] at ih ⊢; rw [ih]

theorem length_setRowsUpTo :
    ∀ (img : List (List Int)) (m : Nat) (v : Int),
      (setRowsUpTo img m v).length = img.length := by
  intro img
  induction img with
  | nil => intro m v; cases m <;> rfl
  | cons r rs ih =>
    intro m v
    cases m with
    | zero => rfl
    | succ m => simp only [setRowsUpTo, List.length_cons, ih]

theorem length_setRowsFromIdx :
    ∀ (img : List (List Int)) (s : Nat) (v : Int),
      (setRowsFromIdx img s v).length = img.length := by
  intro img
  induction img with
  | nil => intro s v; cases s <;> rfl
  | cons r rs ih =>
    intro s v
    cases s with
    | zero => simp only [setRowsFromIdx, List.length_cons, ih]
    | succ s => simp only [setRowsFromIdx, List.length_cons, ih]

theorem rows_setRowsUpTo (w : Nat) :
    ∀ (img : List (List Int)) (m : Nat) (v : Int),
      (∀ r ∈ img, r.length = w) →
      ∀ r ∈ setRowsUpTo img m v, r.length = w := by
  intro img
  induction img with
  | nil => intro m v _ r hr; cases m <;> simp [setRowsUpTo] at hr
  | cons r0 rs ih =>
    intro m v hall r hr
    cases m with
    | zero => exact hall r hr
    | succ m =>
      simp only [setRowsUpTo, List.mem_cons] at hr
      rcases hr with hr | hr
      · rw [hr, constRow, List.length_map]
        exact hall r0 (List.mem_cons_self _ _)
      · exact ih m v (fun z hz => hall z (List.mem_cons_of_mem _ hz)) r hr

theorem rows_setRowsFromIdx (w : Nat) :
    ∀ (img : List (List Int)) (s : Nat) (v : Int),
      (∀ r ∈ img, r.length = w) →
      ∀ r ∈ setRowsFromIdx img s v, r.length = w := by
  intro img
  induction img with
  | nil => intro s v _ r hr; cases s <;> simp [setRowsFromIdx] at hr
  | cons r0 rs ih =>
    intro s v hall r hr
    cases s with
    | zero =>
      simp only [setRowsFromIdx, List.mem_cons] at hr
      rcases hr with hr | hr
      · rw [hr, constRow, List.length_map]
        exact hall r0 (List.mem_cons_self _ _)
      · exact ih 0 v (fun z hz => hall z (List.mem_cons_of_mem _ hz)) r hr
    | succ s =>
      simp only [setRowsFromIdx, List.mem_cons] at hr
      rcases hr with hr | hr
      · rw [hr]; exact hall r0 (List.mem_cons_self _ _)
      · exact ih s v (fun z hz => hall z (List.mem_cons_of_mem _ hz)) r hr

theorem mapConstRows (w : Nat) (v : Int) :
    ∀ l : List (List Int), (∀ r ∈ l, r.length = w) →
      l.map (fun r => constRow r v) =
        List.replicate l.length (List.replicate w v) := by
  intro l
  induction l with
  | nil => intro _; rfl
  | cons r rs ih =>
    intro hall
    simp only [List.map_cons, List.length_cons, List.replicate_succ]
    rw [constRow_eq_replicate r v w (hall r (List.mem_cons_self _ _)),
      ih (fun z hz => hall z (List.mem_cons_of_mem _ hz))]

theorem setColsUpTo_replicate (v : Int) :
    ∀ (w m : Nat), setColsUpTo (List.replicate w v) m v = List.replicate w v := by
  intro w
  induction w with
  | zero => intro m; cases m <;> rfl
  | succ w ih =>
    intro m
    cases m with
    | zero => rfl
    | succ m =>
      simp only [List.replicate_succ, setColsUpTo]
      rw [ih m]

theorem setColsFromIdx_replicate (v : Int) :
    ∀ (w s : Nat), setColsFromIdx (List.replicate w v) s v = List.replicate w v := by
  intro w
  induction w with
  | zero => intro s; cases s <;> rfl
  | succ w ih =>
    intro s
    cases s with
    | zero =>
      rw [setColsFromIdx_zero,
        constRow_eq_replicate _ v (w + 1) (List.length_replicate _ _)]
    | succ s =>
      simp only [List.replicate_succ, setColsFromIdx]
      rw [ih s]

/-- Claim C10 (confirmed): the margins truncate to 0 for small images —
`int(height*0.1) = 0` for fewer than 10 rows and `int(width*0.05) = 0` for
fewer than 20 columns — and NumPy's `a[-0:] = v` assigns the *whole* axis,
so `remove_sensitive_info` returns an image that is constant at the
input's minimum instead of an image with scrubbed margins. -/
theorem claim_C10 :
    (∀ (img : List (List Int)) (w : Nat),
      (∀ r ∈ img, r.length = w) → img.length < 10 →
      remove_sensitive_info img =
        List.replicate img.length (List.replicate w (npMin2 img))) ∧
    (∀ (img : List (List Int)) (w : Nat),
      (∀ r ∈ img, r.length = w) → img ≠ [] → w < 20 →
      remove_sensitive_info img =
        List.replicate img.length (List.replicate w (npMin2 img))) ∧
    remove_sensitive_info [[5, 2], [7, 9]] = [[2, 2], [2, 2]] := by
  refine ⟨?_, ?_, by decide⟩
  · intro img w hrect hlt
    unfold remove_sensitive_info
    dsimp only
    rw [Nat.div_eq_of_lt hlt, setRowsUpTo_zero, pyNegStart_zero,
      setRowsFromIdx_zero, mapConstRows w (npMin2 img) img hrect,
      List.map_replicate, List.map_replicate, setColsUpTo_replicate,
      setColsFromIdx_replicate]
  · intro img w hrect hne hw
    have hwidth : (img.headD []).length = w := by
      cases img with
      | nil => exact absurd rfl hne
      | cons r rs => exact hrect r (List.mem_cons_self _ _)
    unfold remove_sensitive_info
    dsimp only
    rw [hwidth, Nat.div_eq_of_lt hw, pyNegStart_zero]
    simp only [setColsUpTo_zero, setColsFromIdx_zero]
    rw [List.map_id']
    rw [mapConstRows w (npMin2 img) _
      (rows_setRowsFromIdx w _ _ _ (rows_setRowsUpTo w _ _ _ hrect))]
    rw [length_setRowsFromIdx, length_setRowsUpTo]

/-- Witness for C10 at a concrete 2×2 image (fewer than 10 rows): the
whole image becomes its minimum value. -/
theorem claim_C10_witness :
    (∀ r ∈ [[5, 2], [7, 9]], r.length = 2) ∧
    ([[5, 2], [7, 9]] : List (List Int)).length < 10 ∧
    remove_sensitive_info [[5, 2], [7, 9]] =
      List.replicate ([[5, 2], [7, 9]] : List (List Int)).length
        (List.replicate 2 (npMin2 [[5, 2], [7, 9]])) :=
  ⟨by decide, by decide, claim_C10.1 [[5, 2], [7, 9]] 2 (by decide) (by decide)⟩

end D2N
